import Mathlib

/-!
Verification development for the gorep concurrent find/grep tool
(source file `part_001`, version 0.2.5).

Shallow embedding conventions:
* Go byte strings are modelled as `List Char` (one `Char` per byte; all the
  relevant byte tests are on values below 0x80 where bytes and runes agree).
* A compiled regular expression is modelled abstractly by its matching
  function `List Char → Bool` (the source calls only `MatchString`).
* Channels/goroutines are modelled either as pure functions from inputs to
  the list of emitted records, or, for the termination/closing and
  semaphore-bound properties, as explicit step relations on counting states.
-/

namespace Gorep

/-- Search scope flags, translated from `type searchScope struct` in the
source: `dir`, `file`, `symlink`, `grep`, `binary`, `hidden`. -/
structure searchScope where
  dir : Bool
  file : Bool
  symlink : Bool
  grep : Bool
  binary : Bool
  hidden : Bool

/-- The `gorep` record from the source: a compiled search pattern, an
optional compiled ignore pattern (nil when no `-ignore` flag was given), and
the scope flags.  The two `*regexp.Regexp` fields are modelled by their
`MatchString` functions. -/
structure gorep where
  pattern : List Char → Bool
  ignorePattern : Option (List Char → Bool)
  scope : searchScope

/-- `this.ignorePattern != nil && this.ignorePattern.MatchString(s)` -/
def ignoreMatches (g : gorep) (s : List Char) : Bool :=
  match g.ignorePattern with
  | some ip => ip s
  | none => false

/-- `const maxNumOfFileOpen = 10`, the capacity of `semFopenLimit`. -/
def maxNumOfFileOpen : Nat := 10

/-- One record sent on the MatchLine (`line`) channel by `gorep.grep`.
The source sends formatted strings; the model keeps the structured content:
`line fpath lineNumber text` for `"%s:%d: %s"`, and `binary fpath` for the
fixed `"Binary file %s matches"` marker. -/
inductive GrepOut where
  | line (fpath : List Char) (lineNumber : Nat) (text : List Char)
  | binary (fpath : List Char)
deriving DecidableEq, Repr

/-- Translation of `verifyBinary` (source lines 365-376): inspect
`buf[:256]` (or all of `buf` when it is shorter) and report whether it
contains a byte below 0x09.  The source uses `bytes.IndexFunc` with
predicate `r < 0x09`; since every rune below 0x09 is a single byte and the
bytes 0x00-0x08 can never occur inside a longer UTF-8 sequence, that index
is `!= -1` exactly when some byte of the prefix is below 0x09. -/
def verifyBinary (buf : List Char) : Bool :=
  let b := if buf.length > 256 then buf.take 256 else buf
  if b.any (fun r => r.toNat < 0x09) then true else false

/-- The body of the scan loop of `gorep.grep` (source lines 427-439) for one
line: if the search pattern matches the line then for a binary file emit the
single binary marker and stop (the `return`), otherwise skip the line when
the ignore pattern matches it and emit `"%s:%d: %s"` when it does not;
`rest` is what the remainder of the loop produces. -/
def grepStep (g : gorep) (fpath : List Char) (isBinary : Bool)
    (lineNumber : Nat) (strline : List Char) (rest : List GrepOut) :
    List GrepOut :=
  if g.pattern strline then
    if isBinary then [GrepOut.binary fpath]
    else if ignoreMatches g strline then rest
    else GrepOut.line fpath lineNumber strline :: rest
  else rest

/-- The scan loop of `gorep.grep` (source lines 411-441): while bytes are
left, take the segment up to the first line feed (`bytes.IndexRune(m,'\n')`)
as the current line — or all remaining bytes when no line feed is left —
advance past the line feed, bump the 1-based line counter and run the
per-line body. -/
def grepLoop (g : gorep) (fpath : List Char) (isBinary : Bool)
    (lineNumber : Nat) (m : List Char) : List GrepOut :=
  if hm : m = [] then []
  else
    match m.findIdx? (fun c => c = '\n') with
    | some index =>
        grepStep g fpath isBinary (lineNumber + 1) (m.take index)
          (grepLoop g fpath isBinary (lineNumber + 1) (m.drop (index + 1)))
    | none =>
        grepStep g fpath isBinary (lineNumber + 1) m []
termination_by m.length
decreasing_by
  simp only [List.length_drop]
  exact Nat.sub_lt (List.length_pos.mpr hm) (Nat.succ_pos index)

/-- The successful tail of `gorep.grep` (source lines 406-441), given the
memory-mapped file content: classify the content, return no matches when it
is binary and binary search is off, and otherwise run the scan loop with the
line counter starting at 0. -/
def grepContent (g : gorep) (fpath : List Char) (mem : List Char) :
    List GrepOut :=
  let isBinary := verifyBinary mem
  if isBinary && !g.scope.binary then []
  else grepLoop g fpath isBinary 0 mem

/-- The line decomposition computed by the scan loop, as a standalone
function: split at each line feed; a final segment with no trailing line
feed is still a line; a file ending in a line feed produces no extra empty
line (the loop exits when no bytes remain). -/
def splitLines (m : List Char) : List (List Char) :=
  if hm : m = [] then []
  else
    match m.findIdx? (fun c => c = '\n') with
    | some index => m.take index :: splitLines (m.drop (index + 1))
    | none => [m]
termination_by m.length
decreasing_by
  simp only [List.length_drop]
  exact Nat.sub_lt (List.length_pos.mpr hm) (Nat.succ_pos index)

/-- The scan loop, re-expressed over the line decomposition: run the
per-line body on each line with 1-based numbering continuing from `n`. -/
def emitFrom (g : gorep) (fpath : List Char) (isBinary : Bool) :
    Nat → List (List Char) → List GrepOut
  | _, [] => []
  | n, l :: ls => grepStep g fpath isBinary (n + 1) l (emitFrom g fpath isBinary (n + 1) ls)

theorem splitLines_nil : splitLines [] = [] := by
  simp [splitLines]

theorem grepLoop_nil (g : gorep) (fpath : List Char) (isBinary : Bool)
    (n : Nat) : grepLoop g fpath isBinary n [] = [] := by
  simp [grepLoop]

/-- The scan loop agrees with the per-line body mapped over the line
decomposition. -/
theorem grepLoop_eq_emitFrom (g : gorep) (fpath : List Char)
    (isBinary : Bool) (m : List Char) (n : Nat) :
    grepLoop g fpath isBinary n m = emitFrom g fpath isBinary n (splitLines m) := by
  have H : ∀ k m, m.length ≤ k → ∀ n : Nat,
      grepLoop g fpath isBinary n m = emitFrom g fpath isBinary n (splitLines m) := by
    intro k
    induction k with
    | zero =>
        intro m hm n
        have : m = [] := List.length_eq_zero.mp (Nat.le_zero.mp hm)
        subst this
        simp [grepLoop, splitLines, emitFrom]
    | succ k ih =>
        intro m hmk n
        by_cases hm : m = []
        · subst hm
          simp [grepLoop, splitLines, emitFrom]
        · rw [grepLoop, splitLines]
          simp only [hm, dite_false]
          cases hx : m.findIdx? (fun c => c = '\n') with
          | some index =>
              dsimp only
              have hle : (m.drop (index + 1)).length ≤ k := by
                simp only [List.length_drop]
                have h1 : 1 ≤ m.length := List.length_pos.mpr hm
                omega
              rw [ih _ hle]
              simp [emitFrom]
          | none =>
              dsimp only
              simp [emitFrom]
  exact H m.length m le_rfl n

/-- `bytes.IndexRune` over an append: when the left part holds no line feed,
the first line feed of `a ++ '\n' :: rest` sits right after `a`. -/
theorem findIdx?_lf_append (a rest : List Char) (ha : '\n' ∉ a) :
    ∀ i, List.findIdx? (fun c => c = '\n') (a ++ '\n' :: rest) i =
      some (i + a.length) := by
  induction a with
  | nil => intro i; simp [List.findIdx?_cons]
  | cons c a ih =>
      intro i
      have hc : ¬(c = '\n') := fun h => ha (List.mem_cons.mpr (Or.inl h.symm))
      have ha2 : '\n' ∉ a := fun h => ha (List.mem_cons.mpr (Or.inr h))
      simp only [List.cons_append, List.findIdx?_cons, decide_eq_false hc,
        Bool.false_eq_true, if_false, ih ha2 (i + 1), List.length_cons]
      exact congrArg some (by omega)

/-- A nonempty chunk without a line feed is one whole line. -/
theorem splitLines_single (m : List Char) (hm : m ≠ []) (ha : '\n' ∉ m) :
    splitLines m = [m] := by
  rw [splitLines]
  have hx : List.findIdx? (fun c => c = '\n') m = none := by
    rw [List.findIdx?_eq_none_iff]
    intro x hx
    simp only [decide_eq_false_iff_not]
    exact fun h => ha (h ▸ hx)
  simp only [hm, dite_false, hx]

/-- Splitting peels one line feed-terminated line at a time. -/
theorem splitLines_append (a rest : List Char) (ha : '\n' ∉ a) :
    splitLines (a ++ '\n' :: rest) = a :: splitLines rest := by
  rw [splitLines]
  have hne : a ++ '\n' :: rest ≠ [] := by simp
  simp only [hne, dite_false, findIdx?_lf_append a rest ha 0, Nat.zero_add]
  congr 1
  · exact List.take_left a ('\n' :: rest)
  · have h : a ++ '\n' :: rest = (a ++ ['\n']) ++ rest := by simp
    have hlen : a.length + 1 = (a ++ ['\n']).length := by simp
    rw [h, hlen, List.drop_left]

/-- For a binary file the scan body emits the single marker on the first
search-pattern hit and returns. -/
theorem emitFrom_binary_of_match (g : gorep) (fpath : List Char) (n : Nat)
    (ls : List (List Char)) (h : ∃ l ∈ ls, g.pattern l = true) :
    emitFrom g fpath true n ls = [GrepOut.binary fpath] := by
  induction ls generalizing n with
  | nil => rcases h with ⟨l, hl, _⟩; cases hl
  | cons l ls ih =>
      rw [emitFrom, grepStep]
      by_cases hp : g.pattern l = true
      · simp [hp]
      · simp only [hp, if_false]
        rcases h with ⟨l', hl', hp'⟩
        rcases List.mem_cons.mp hl' with h1 | h1
        · exact absurd (h1 ▸ hp') hp
        · exact ih _ ⟨l', h1, hp'⟩

/-- For a binary file the scan body emits at most the marker, and only when
some line hits the search pattern. -/
theorem emitFrom_binary_sound (g : gorep) (fpath : List Char) (n : Nat)
    (ls : List (List Char)) (h : emitFrom g fpath true n ls ≠ []) :
    ∃ l ∈ ls, g.pattern l = true := by
  induction ls generalizing n with
  | nil => simp [emitFrom] at h
  | cons l ls ih =>
      rw [emitFrom, grepStep] at h
      by_cases hp : g.pattern l = true
      · exact ⟨l, List.mem_cons_self l ls, hp⟩
      · simp only [hp, if_false] at h
        rcases ih _ h with ⟨l', hl', hp'⟩
        exact ⟨l', List.mem_cons.mpr (Or.inr hl'), hp'⟩

/-- Per line of a text file: emit exactly when the search pattern matches
and the ignore pattern does not. -/
theorem emitFrom_text_cons (g : gorep) (fpath l : List Char) (n : Nat)
    (ls : List (List Char)) :
    emitFrom g fpath false n (l :: ls) =
      if g.pattern l && !ignoreMatches g l then
        GrepOut.line fpath (n + 1) l :: emitFrom g fpath false (n + 1) ls
      else emitFrom g fpath false (n + 1) ls := by
  rw [emitFrom, grepStep]
  by_cases hp : g.pattern l = true
  · by_cases hi : ignoreMatches g l = true
    · simp [hp, hi]
    · simp only [Bool.not_eq_true] at hi
      simp [hp, hi]
  · simp only [Bool.not_eq_true] at hp
    simp [hp]

/-- Lines hit by neither pattern produce nothing. -/
theorem emitFrom_text_none (g : gorep) (fpath : List Char) (n : Nat)
    (ls : List (List Char)) (h : ∀ l ∈ ls, g.pattern l = false) :
    emitFrom g fpath false n ls = [] := by
  induction ls generalizing n with
  | nil => rfl
  | cons l ls ih =>
      rw [emitFrom_text_cons]
      have hl : g.pattern l = false := h l (List.mem_cons_self l ls)
      simp only [hl, Bool.false_and, if_false]
      exact ih _ fun l' hl' => h l' (List.mem_cons.mpr (Or.inr hl'))

/-- Every text-file record stems from a line hit by the search pattern and
missed by the ignore pattern. -/
theorem emitFrom_text_sound (g : gorep) (fpath : List Char) (n : Nat)
    (ls : List (List Char)) (p l : List Char) (k : Nat)
    (h : GrepOut.line p k l ∈ emitFrom g fpath false n ls) :
    g.pattern l = true ∧ ignoreMatches g l = false := by
  induction ls generalizing n with
  | nil => simp [emitFrom] at h
  | cons l0 ls ih =>
      rw [emitFrom_text_cons] at h
      by_cases hc : (g.pattern l0 && !ignoreMatches g l0) = true
      · simp only [hc, if_true] at h
        rcases List.mem_cons.mp h with h1 | h1
        · simp only [Bool.and_eq_true, Bool.not_eq_true'] at hc
          cases h1
          exact hc
        · exact ih _ h1
      · simp only [hc, if_false] at h
        exact ih _ h

/-- A scope with every search category enabled (the `-g -search-binary`
configuration with default find scope). -/
def allScope : searchScope := ⟨true, true, true, true, true, false⟩

/-- A sample file path used to instantiate the scan theorems. -/
def samplePath : List Char := ['f']

/-- The NUL byte, which classifies a buffer as binary. -/
def nulChar : Char := Char.ofNat 0

/-- A pattern matching every line, no ignore pattern. -/
def binG : gorep := ⟨fun _ => true, none, allScope⟩

/-- Claim C3: for a binary-classified file, a scan emits nothing when binary
search is disabled; when it is enabled and some line matches the search
pattern, the scan emits exactly the single fixed binary marker and stops. -/
theorem grep_binary_file_scan (g : gorep) (fpath mem : List Char)
    (hbin : verifyBinary mem = true) :
    (g.scope.binary = false → grepContent g fpath mem = []) ∧
    (g.scope.binary = true → (∃ l ∈ splitLines mem, g.pattern l = true) →
      grepContent g fpath mem = [GrepOut.binary fpath]) := by
  constructor
  · intro hb
    simp [grepContent, hbin, hb]
  · intro hb hex
    simp only [grepContent, hbin, hb, Bool.not_true, Bool.and_false,
      Bool.false_eq_true, if_false]
    rw [grepLoop_eq_emitFrom]
    exact emitFrom_binary_of_match g fpath 0 _ hex

theorem grep_binary_file_scan_witness :
    grepContent binG samplePath [nulChar] = [GrepOut.binary samplePath] := by
  refine (grep_binary_file_scan binG samplePath [nulChar] (by decide)).2 rfl ?_
  refine ⟨[nulChar], ?_, rfl⟩
  rw [splitLines_single [nulChar] (by decide) (by decide)]
  exact List.mem_singleton.mpr rfl

/-- Claim C4: for a non-binary file the scanner splits the bytes into lines
at each line feed (a final line without one is still a line), numbers them
1-based in file order, and — when exactly the lines at positions 2, 5 and 9
match the pattern and none is filtered by the ignore pattern — emits exactly
three records with line numbers 2, 5, 9 in increasing order, each carrying
the exact matched line text. -/
theorem grep_text_match_lines (g : gorep) (fpath mem : List Char)
    (l1 l2 l3 l4 l5 l6 l7 l8 l9 : List Char) (rest : List (List Char))
    (hbin : verifyBinary mem = false)
    (hsplit : splitLines mem =
      l1 :: l2 :: l3 :: l4 :: l5 :: l6 :: l7 :: l8 :: l9 :: rest)
    (h1 : g.pattern l1 = false) (h2 : g.pattern l2 = true)
    (h2i : ignoreMatches g l2 = false) (h3 : g.pattern l3 = false)
    (h4 : g.pattern l4 = false) (h5 : g.pattern l5 = true)
    (h5i : ignoreMatches g l5 = false) (h6 : g.pattern l6 = false)
    (h7 : g.pattern l7 = false) (h8 : g.pattern l8 = false)
    (h9 : g.pattern l9 = true) (h9i : ignoreMatches g l9 = false)
    (hrest : ∀ l ∈ rest, g.pattern l = false) :
    grepContent g fpath mem =
      [GrepOut.line fpath 2 l2, GrepOut.line fpath 5 l5,
        GrepOut.line fpath 9 l9] := by
  simp only [grepContent, hbin, Bool.false_and, Bool.false_eq_true, if_false]
  rw [grepLoop_eq_emitFrom, hsplit]
  rw [emitFrom_text_cons]
  simp only [h1, Bool.false_and, Bool.false_eq_true, if_false]
  rw [emitFrom_text_cons]
  simp only [h2, h2i, Bool.not_false, Bool.and_self, if_true]
  rw [emitFrom_text_cons]
  simp only [h3, Bool.false_and, Bool.false_eq_true, if_false]
  rw [emitFrom_text_cons]
  simp only [h4, Bool.false_and, Bool.false_eq_true, if_false]
  rw [emitFrom_text_cons]
  simp only [h5, h5i, Bool.not_false, Bool.and_self, if_true]
  rw [emitFrom_text_cons]
  simp only [h6, Bool.false_and, Bool.false_eq_true, if_false]
  rw [emitFrom_text_cons]
  simp only [h7, Bool.false_and, Bool.false_eq_true, if_false]
  rw [emitFrom_text_cons]
  simp only [h8, Bool.false_and, Bool.false_eq_true, if_false]
  rw [emitFrom_text_cons]
  simp only [h9, h9i, Bool.not_false, Bool.and_self, if_true]
  rw [emitFrom_text_none g fpath 9 rest hrest]

/-- A nine-line sample text: lines 2, 5 and 9 are `m`, the rest `x`; the
last line has no trailing line feed. -/
def memT : List Char :=
  ['x', '\n', 'm', '\n', 'x', '\n', 'x', '\n', 'm', '\n', 'x', '\n',
   'x', '\n', 'x', '\n', 'm']

/-- A pattern matching exactly the line `m`, no ignore pattern. -/
def textG : gorep := ⟨fun l => decide (l = ['m']), none, allScope⟩

theorem grep_text_match_lines_witness :
    grepContent textG samplePath memT =
      [GrepOut.line samplePath 2 ['m'], GrepOut.line samplePath 5 ['m'],
        GrepOut.line samplePath 9 ['m']] := by
  have hs : splitLines memT =
      ['x'] :: ['m'] :: ['x'] :: ['x'] :: ['m'] :: ['x'] :: ['x'] :: ['x'] ::
        ['m'] :: [] := by
    show splitLines
      (['x'] ++ '\n' :: (['m'] ++ '\n' :: (['x'] ++ '\n' :: (['x'] ++ '\n' ::
        (['m'] ++ '\n' :: (['x'] ++ '\n' :: (['x'] ++ '\n' :: (['x'] ++ '\n' ::
          ['m'])))))))) = _
    rw [splitLines_append _ _ (by decide), splitLines_append _ _ (by decide),
      splitLines_append _ _ (by decide), splitLines_append _ _ (by decide),
      splitLines_append _ _ (by decide), splitLines_append _ _ (by decide),
      splitLines_append _ _ (by decide), splitLines_append _ _ (by decide),
      splitLines_single _ (by decide) (by decide)]
  exact grep_text_match_lines textG samplePath memT
    ['x'] ['m'] ['x'] ['x'] ['m'] ['x'] ['x'] ['x'] ['m'] []
    (by decide) hs (by decide) (by decide) rfl (by decide) (by decide)
    (by decide) rfl (by decide) (by decide) (by decide) (by decide) rfl
    (by intro l hl; cases hl)

/-- An ignore pattern matching every line. -/
def cexIgn : List Char → Bool := fun _ => true

/-- A configuration whose search pattern matches everything and whose ignore
pattern also matches everything, with binary search enabled. -/
def cexG : gorep := ⟨fun _ => true, some cexIgn, allScope⟩

/-- Claim C5 as stated is false on the code: it asserts that every emission
— the binary marker included — requires the matched line to also pass the
ignore filter, but for a binary-classified file the scanner emits the marker
without consulting the ignore pattern.  Concretely, with an ignore pattern
matching every line and a one-byte binary file, a record is still
emitted. -/
theorem grep_ignore_governs_counterexample :
    ¬ (∀ (g : gorep) (fpath mem : List Char) (out : GrepOut),
        out ∈ grepContent g fpath mem →
        ∃ l ∈ splitLines mem, g.pattern l = true ∧
          (g.ignorePattern = none ∨
            ∃ ip, g.ignorePattern = some ip ∧ ip l = false)) := by
  intro hclaim
  have heq : grepContent cexG samplePath [nulChar] =
      [GrepOut.binary samplePath] := by
    have hbin : verifyBinary [nulChar] = true := by decide
    simp only [grepContent, hbin, Bool.not_true, Bool.and_false,
      Bool.false_eq_true, if_false]
    rw [grepLoop_eq_emitFrom, splitLines_single [nulChar] (by decide) (by decide)]
    rfl
  have hmem : GrepOut.binary samplePath ∈
      grepContent cexG samplePath [nulChar] := by
    rw [heq]; exact List.mem_singleton.mpr rfl
  rcases hclaim cexG samplePath [nulChar] _ hmem with ⟨l, _, _, hcond⟩
  rcases hcond with hnone | ⟨ip, hip, hfalse⟩
  · simp [cexG] at hnone
  · have h2 : some cexIgn = some ip := hip
    have h3 : cexIgn = ip := Option.some.inj h2
    rw [← h3] at hfalse
    simp [cexIgn] at hfalse

/-- Claim C5 amended: for non-binary files an emission for a line requires
the line to match the search pattern and to be missed by the ignore pattern;
for a binary-classified file the single marker is governed by the search
pattern alone — the ignore pattern is not consulted on that path. -/
theorem grep_emission_condition (g : gorep) (fpath mem : List Char) :
    (verifyBinary mem = false →
      ∀ p l k, GrepOut.line p k l ∈ grepContent g fpath mem →
        g.pattern l = true ∧ ignoreMatches g l = false) ∧
    (verifyBinary mem = true → grepContent g fpath mem ≠ [] →
      ∃ l ∈ splitLines mem, g.pattern l = true) := by
  constructor
  · intro hbin p l k hmem
    simp only [grepContent, hbin, Bool.false_and, Bool.false_eq_true,
      if_false] at hmem
    rw [grepLoop_eq_emitFrom] at hmem
    exact emitFrom_text_sound g fpath 0 _ p l k hmem
  · intro hbin hne
    by_cases hb : g.scope.binary = true
    · simp only [grepContent, hbin, hb, Bool.not_true, Bool.and_false,
        Bool.false_eq_true, if_false] at hne
      rw [grepLoop_eq_emitFrom] at hne
      exact emitFrom_binary_sound g fpath 0 _ hne
    · simp only [Bool.not_eq_true] at hb
      simp [grepContent, hbin, hb] at hne

theorem grep_emission_condition_witness :
    ∃ l ∈ splitLines [nulChar], cexG.pattern l = true := by
  refine (grep_emission_condition cexG samplePath [nulChar]).2 (by decide) ?_
  have hbin : verifyBinary [nulChar] = true := by decide
  simp only [grepContent, hbin, Bool.not_true, Bool.and_false,
    Bool.false_eq_true, if_false]
  rw [grepLoop_eq_emitFrom, splitLines_single [nulChar] (by decide) (by decide)]
  intro h
  exact List.noConfusion h

/-- The classifier only ever looks at the first 256 bytes. -/
theorem verifyBinary_take (buf : List Char) :
    verifyBinary buf = (buf.take 256).any (fun r => r.toNat < 0x09) := by
  unfold verifyBinary
  have hb : (if buf.length > 256 then buf.take 256 else buf) = buf.take 256 := by
    by_cases h : buf.length > 256
    · simp [h]
    · rw [if_neg h, List.take_of_length_le (Nat.le_of_not_lt h)]
  rw [hb]
  cases hany : (buf.take 256).any (fun r => r.toNat < 0x09) <;> simp [hany]

/-- Claim C9: the binary classifier returns true exactly when the inspected
prefix — the first 256 bytes, or the whole buffer when shorter — holds a
byte below 0x09, and bytes beyond the 256-byte prefix never change the
classification. -/
theorem verifyBinary_prefix_spec :
    (∀ buf : List Char,
      verifyBinary buf = true ↔ ∃ c ∈ buf.take 256, c.toNat < 0x09) ∧
    (∀ b1 b2 : List Char, b1.take 256 = b2.take 256 →
      verifyBinary b1 = verifyBinary b2) := by
  constructor
  · intro buf
    rw [verifyBinary_take, List.any_eq_true]
    simp only [decide_eq_true_eq]
  · intro b1 b2 h
    rw [verifyBinary_take, verifyBinary_take, h]

theorem verifyBinary_prefix_spec_witness :
    verifyBinary (List.replicate 256 'a' ++ [nulChar]) =
      verifyBinary (List.replicate 256 'a') := by
  refine verifyBinary_prefix_spec.2 _ _ ?_
  rw [List.take_append_of_le_length (by rw [List.length_replicate])]

/-- `path.Base` from Go's `path` package, as used by `verifyHidden` and by
the dispatch filter: the empty path gives `"."`; trailing separators are
dropped; a path of only separators gives `"/"`; otherwise the part after the
last separator is returned. -/
def pathBase (p : List Char) : List Char :=
  if p = [] then ['.']
  else
    let r := p.reverse.dropWhile (fun c => c = '/')
    if r = [] then ['/']
    else (r.takeWhile (fun c => c ≠ '/')).reverse

/-- Translation of `verifyHidden` (source lines 272-279): the entry is
hidden when the first byte of the base name is `'.'`.  `path.Base` never
returns an empty string, so the empty case is unreachable. -/
def verifyHidden (fpath : List Char) : Bool :=
  match pathBase fpath with
  | c :: _ => c = '.'
  | [] => false

/-- The mode bits of a directory entry that `gorep.mapfork` inspects:
`os.ModeDir`, `os.ModeSymlink` and the other ten bits of its `ignoreFlag`
constant (source lines 291-293). -/
structure FileMode where
  isDir : Bool
  isAppend : Bool
  isExclusive : Bool
  isTemporary : Bool
  isSymlink : Bool
  isDevice : Bool
  isNamedPipe : Bool
  isSocket : Bool
  isSetuid : Bool
  isSetgid : Bool
  isCharDevice : Bool
  isSticky : Bool

/-- `mode & ignoreFlag != 0` for the twelve-bit `ignoreFlag` constant. -/
def ignoreFlagSet (m : FileMode) : Bool :=
  m.isDir || m.isAppend || m.isExclusive || m.isTemporary || m.isSymlink ||
    m.isDevice || m.isNamedPipe || m.isSocket || m.isSetuid || m.isSetgid ||
    m.isCharDevice || m.isSticky

/-- A raw entry sent by `gorep.mapfork` on one of the `channelSet` streams. -/
inductive MapEmit where
  | dir (fullpath : List Char)
  | symlink (fullpath : List Char)
  | file (fullpath : List Char)
deriving DecidableEq, Repr

/-- The per-child body of the listing loop of `gorep.mapfork` (source lines
295-317): a hidden child (when hidden search is off) or a child whose name
matches the ignore pattern is skipped; otherwise a directory child is
emitted and recursed into, a symlink child is emitted, a child with none of
the `ignoreFlag` bits is emitted as a file, and anything else is skipped.
The result is the emitted entry (if any) and whether a new expansion task is
spawned for the child. -/
def mapforkChild (g : gorep) (fpath fname : List Char) (mode : FileMode) :
    Option MapEmit × Bool :=
  if !g.scope.hidden && verifyHidden fname then (none, false)
  else if ignoreMatches g fname then (none, false)
  else if mode.isDir then (some (MapEmit.dir (fpath ++ '/' :: fname)), true)
  else if mode.isSymlink then
    (some (MapEmit.symlink (fpath ++ '/' :: fname)), false)
  else if !ignoreFlagSet mode then
    (some (MapEmit.file (fpath ++ '/' :: fname)), false)
  else (none, false)

/-- A separator-free nonempty name is its own base name. -/
theorem pathBase_of_plain (p : List Char) (hp : p ≠ []) (hs : '/' ∉ p) :
    pathBase p = p := by
  unfold pathBase
  rw [if_neg hp]
  have hrev : '/' ∉ p.reverse := fun h => hs (List.mem_reverse.mp h)
  have hdrop : p.reverse.dropWhile (fun c => c = '/') = p.reverse := by
    cases hr : p.reverse with
    | nil => rfl
    | cons c cs =>
        have hc : ¬(c = '/') := fun h => by
          apply hrev
          rw [hr]
          exact List.mem_cons.mpr (Or.inl h.symm)
        rw [List.dropWhile_cons]
        simp [hc]
  rw [hdrop]
  have hrne : p.reverse ≠ [] := fun h => hp (by simpa using congrArg List.reverse h)
  rw [if_neg hrne]
  have htake : p.reverse.takeWhile (fun c => c ≠ '/') = p.reverse := by
    rw [List.takeWhile_eq_self_iff]
    intro x hx
    simp only [ne_eq, decide_eq_true_eq]
    exact fun h => hrev (h ▸ hx)
  rw [htake, List.reverse_reverse]

/-- Claim C6: during listing, a child whose base name starts with the hidden
marker `'.'` (while hidden search is off), or whose base name matches the
configured ignore pattern, is skipped entirely: nothing is emitted on any
stream and no expansion task is spawned for it. -/
theorem mapfork_skips_hidden_and_ignored (g : gorep) (fpath fname : List Char)
    (mode : FileMode)
    (h : (g.scope.hidden = false ∧ fname.head? = some '.' ∧ '/' ∉ fname) ∨
      ignoreMatches g fname = true) :
    mapforkChild g fpath fname mode = (none, false) := by
  rcases h with ⟨hh, hhead, hsep⟩ | hig
  · have hne : fname ≠ [] := by
      intro h0
      rw [h0] at hhead
      exact Option.noConfusion hhead
    have hhid : verifyHidden fname = true := by
      unfold verifyHidden
      rw [pathBase_of_plain fname hne hsep]
      cases fname with
      | nil => exact absurd rfl hne
      | cons c cs =>
          have hc : c = '.' := Option.some.inj hhead
          simp [hc]
    simp [mapforkChild, hh, hhid]
  · simp [mapforkChild, hig]

theorem mapfork_skips_hidden_and_ignored_witness :
    mapforkChild textG ['d'] ['.', 'g']
      ⟨false, false, false, false, false, false, false, false, false, false,
        false, false⟩ = (none, false) :=
  mapfork_skips_hidden_and_ignored textG ['d'] ['.', 'g'] _
    (Or.inl ⟨rfl, rfl, by decide⟩)

/-- The per-message body of the file consumer of `gorep.reduce` (source
lines 338-351): when file scope is on and the base name of the path matches
the search pattern, the path is forwarded on the filtered file stream; and
independently, when grep scope is on, a content-scanner task is spawned for
the path.  The result is the forwarded record (if any) and whether a scan
task was spawned. -/
def reduceFileMsg (g : gorep) (msg : List Char) :
    Option (List Char) × Bool :=
  (if g.scope.file then
      (if g.pattern (pathBase msg) then some msg else none)
    else none,
   g.scope.grep)

/-- Claim C7: a File entry is forwarded on the filtered file stream exactly
when its base name matches the search pattern and the file scope flag is on;
independently, a content-scanner task is spawned for it exactly when the
grep scope flag is on — in particular with grep on and file scope off the
file is still scanned. -/
theorem reduce_file_dispatch (g : gorep) (msg : List Char) :
    ((reduceFileMsg g msg).1 = some msg ↔
      (g.pattern (pathBase msg) = true ∧ g.scope.file = true)) ∧
    ((reduceFileMsg g msg).2 = true ↔ g.scope.grep = true) ∧
    (g.scope.grep = true → g.scope.file = false →
      (reduceFileMsg g msg).2 = true) := by
  refine ⟨?_, Iff.rfl, fun hg _ => hg⟩
  constructor
  · intro h
    cases hf : g.scope.file with
    | false => simp [reduceFileMsg, hf] at h
    | true =>
        cases hp : g.pattern (pathBase msg) with
        | false => simp [reduceFileMsg, hf, hp] at h
        | true => exact ⟨rfl, rfl⟩
  · rintro ⟨hp, hf⟩
    simp [reduceFileMsg, hp, hf]

/-- The `-grep-only` scope: find streams off, grep on. -/
def grepOnlyScope : searchScope := ⟨false, false, false, true, false, false⟩

/-- A configuration in `-grep-only` mode. -/
def grepOnlyG : gorep := ⟨fun _ => true, none, grepOnlyScope⟩

theorem reduce_file_dispatch_witness :
    (reduceFileMsg grepOnlyG ['a']).2 = true :=
  (reduce_file_dispatch grepOnlyG ['a']).2.2 rfl rfl

/-- File-descriptor and permit events of one scanner task, in order:
`acq`/`rel` are `semFopenLimit <- 1` and `<-semFopenLimit`, `fopen`/`fclose`
are `os.Open` succeeding and the deferred `file.Close` running. -/
inductive FdEv where
  | acq
  | fopen
  | fclose
  | rel
deriving DecidableEq, Repr

/-- Outcome of the three fallible file-system steps of `gorep.grep`:
`os.Open`, `file.Stat` or `syscall.Mmap` failing with an error text, or all
three succeeding with the mapped content. -/
inductive FileAccess where
  | openFail (err : List Char)
  | statFail (err : List Char)
  | mmapFail (err : List Char)
  | ok (content : List Char)

/-- Everything one `gorep.grep` task does: records sent on the line channel,
messages written to the error channel (stderr), whether any path calls
`os.Exit` (none does in `grep`), and its fd/permit events. -/
structure GrepResult where
  hits : List GrepOut
  errors : List (List Char)
  fatal : Bool
  events : List FdEv

/-- Full translation of `gorep.grep` (source lines 378-441).  The deferred
release of the semaphore runs on every exit path; the deferred `file.Close`
runs on every path after a successful `os.Open` and before the release
(defers run last-in first-out).  Each failure is reported on the error
channel and the task returns with no matches; no path exits the process. -/
def grep (g : gorep) (fpath : List Char) (acc : FileAccess) : GrepResult :=
  match acc with
  | FileAccess.openFail e =>
      ⟨[], [String.toList "grep open error: " ++ e], false,
        [FdEv.acq, FdEv.rel]⟩
  | FileAccess.statFail e =>
      ⟨[], [String.toList "grep stat error: " ++ e], false,
        [FdEv.acq, FdEv.fopen, FdEv.fclose, FdEv.rel]⟩
  | FileAccess.mmapFail e =>
      ⟨[], [String.toList "grep mmap error: " ++ e], false,
        [FdEv.acq, FdEv.fopen, FdEv.fclose, FdEv.rel]⟩
  | FileAccess.ok content =>
      ⟨grepContent g fpath content, [], false,
        [FdEv.acq, FdEv.fopen, FdEv.fclose, FdEv.rel]⟩

/-- A scanner task that skips its unit of work without harm: no match
records, the failure reported on the error channel, no process exit, and
the concurrency permit released (as many releases as acquisitions, so no
sibling task is left blocked on the pool). -/
def NonFatalSkip (r : GrepResult) : Prop :=
  r.hits = [] ∧ r.errors ≠ [] ∧ r.fatal = false ∧
    r.events.count FdEv.rel = r.events.count FdEv.acq

/-- Claim C8: when open, stat or mmap fails for a file, the failure is
reported to the error channel, the run is not terminated, the task emits
zero MatchLine records, and the permit is released so no sibling task is
blocked. -/
theorem grep_failure_nonfatal (g : gorep) (fpath e : List Char) :
    NonFatalSkip (grep g fpath (FileAccess.openFail e)) ∧
    NonFatalSkip (grep g fpath (FileAccess.statFail e)) ∧
    NonFatalSkip (grep g fpath (FileAccess.mmapFail e)) := by
  refine ⟨⟨rfl, ?_, rfl, rfl⟩, ⟨rfl, ?_, rfl, rfl⟩,
    ⟨rfl, ?_, rfl, rfl⟩⟩ <;> exact fun h => List.noConfusion h

/-- Counting abstraction of the `semFopenLimit` discipline: how many scanner
tasks currently hold a permit, by phase — `nPre` acquired but their
`os.Open` has not succeeded (or already failed), `nOpen` have their file
open, `nClosed` ran the deferred `file.Close` but not yet the release. -/
structure PoolState where
  nPre : Nat
  nOpen : Nat
  nClosed : Nat
deriving DecidableEq, Repr

/-- Permits currently held, i.e. tokens in the buffered channel. -/
def PoolState.held (s : PoolState) : Nat := s.nPre + s.nOpen + s.nClosed

/-- Interleaved execution steps of the scanner tasks against the permit
pool, following the exit paths of `gorep.grep`: a send on the channel
proceeds only while fewer than `maxNumOfFileOpen` tokens are buffered
(`acq`); a task then either opens its file (`openOk`) or fails to open and
runs its deferred release (`openFailRel`); an open file is closed by the
deferred `file.Close` (`closeFile`) before the deferred release (`rel`). -/
inductive PoolStep : PoolState → PoolState → Prop where
  | acq (s : PoolState) (h : s.held < maxNumOfFileOpen) :
      PoolStep s ⟨s.nPre + 1, s.nOpen, s.nClosed⟩
  | openOk (p o c : Nat) : PoolStep ⟨p + 1, o, c⟩ ⟨p, o + 1, c⟩
  | openFailRel (p o c : Nat) : PoolStep ⟨p + 1, o, c⟩ ⟨p, o, c⟩
  | closeFile (p o c : Nat) : PoolStep ⟨p, o + 1, c⟩ ⟨p, o, c + 1⟩
  | rel (p o c : Nat) : PoolStep ⟨p, o, c + 1⟩ ⟨p, o, c⟩

/-- States reachable from the idle pool. -/
def PoolReachable : PoolState → Prop :=
  Relation.ReflTransGen PoolStep ⟨0, 0, 0⟩

/-- The channel capacity bounds the permits held in every reachable state. -/
theorem poolHeld_le (s : PoolState) (h : PoolReachable s) :
    s.held ≤ maxNumOfFileOpen := by
  induction h with
  | refl => exact Nat.zero_le _
  | tail hsteps hstep ih =>
      cases hstep with
      | acq t ht => simp only [PoolState.held] at *; omega
      | openOk p o c => simp only [PoolState.held] at *; omega
      | openFailRel p o c => simp only [PoolState.held] at *; omega
      | closeFile p o c => simp only [PoolState.held] at *; omega
      | rel p o c => simp only [PoolState.held] at *; omega

/-- Net permits held after a list of events. -/
def heldIn (evs : List FdEv) : Int :=
  (evs.count FdEv.acq : Int) - evs.count FdEv.rel

/-- Net files open after a list of events. -/
def openIn (evs : List FdEv) : Int :=
  (evs.count FdEv.fopen : Int) - evs.count FdEv.fclose

/-- Claim C2: at most `maxNumOfFileOpen` (ten) files are simultaneously
open for content scanning in any reachable state, and every individual
scanner task acquires its permit before opening the file and releases it on
every exit path — at every point of its event list the files it holds open
are covered by permits it holds, and at the end all permits are given
back. -/
theorem scanner_fd_bound :
    (∀ s : PoolState, PoolReachable s → s.nOpen ≤ maxNumOfFileOpen) ∧
    (∀ (g : gorep) (fpath : List Char) (acc : FileAccess),
      heldIn (grep g fpath acc).events = 0 ∧
      ∀ p ∈ (grep g fpath acc).events.inits, 0 ≤ openIn p ∧ openIn p ≤ heldIn p) := by
  constructor
  · intro s h
    have hle := poolHeld_le s h
    simp only [PoolState.held] at hle
    omega
  · intro g fpath acc
    cases acc with
    | openFail e =>
        refine ⟨rfl, ?_⟩
        show ∀ p ∈ ([FdEv.acq, FdEv.rel] : List FdEv).inits,
          0 ≤ openIn p ∧ openIn p ≤ heldIn p
        decide
    | statFail e =>
        refine ⟨rfl, ?_⟩
        show ∀ p ∈ ([FdEv.acq, FdEv.fopen, FdEv.fclose, FdEv.rel] :
            List FdEv).inits, 0 ≤ openIn p ∧ openIn p ≤ heldIn p
        decide
    | mmapFail e =>
        refine ⟨rfl, ?_⟩
        show ∀ p ∈ ([FdEv.acq, FdEv.fopen, FdEv.fclose, FdEv.rel] :
            List FdEv).inits, 0 ≤ openIn p ∧ openIn p ≤ heldIn p
        decide
    | ok content =>
        refine ⟨rfl, ?_⟩
        show ∀ p ∈ ([FdEv.acq, FdEv.fopen, FdEv.fclose, FdEv.rel] :
            List FdEv).inits, 0 ≤ openIn p ∧ openIn p ≤ heldIn p
        decide

theorem scanner_fd_bound_witness :
    ((⟨1, 0, 0⟩ : PoolState).nOpen ≤ maxNumOfFileOpen) ∧
    (heldIn (grep binG samplePath (FileAccess.openFail [])).events = 0) :=
  ⟨scanner_fd_bound.1 ⟨1, 0, 0⟩
      (Relation.ReflTransGen.single (PoolStep.acq ⟨0, 0, 0⟩ (by decide))),
    (scanner_fd_bound.2 binG samplePath (FileAccess.openFail [])).1⟩

/-- Counting abstraction of `gorep.kick` and `gorep.mapfork` (source lines
239-254, 281-318): `counter` is the `waitMaps` WaitGroup value, `running`
the number of listing tasks spawned but not yet finished, `closed` whether
`closeChannelSet(chsMap)` has run, and `badEmit` records whether any task
ever sent an entry after the close.  The root call contributes
`waitMaps.Add(1)` and one running task before anything else happens. -/
structure WalkState where
  counter : Nat
  running : Nat
  closed : Bool
  badEmit : Bool
deriving DecidableEq, Repr

/-- Interleaved steps of the walker: a running task does `waitMaps.Add(1)`
and spawns a child listing (`spawn`, needs a running task); a task's own
listing finishes and its deferred `waitMaps.Done()` runs (`finish`);
`waitMaps.Wait()` returns only at counter zero and the raw streams are then
closed, guarded against re-closing (`close`); a running task sends an entry
on a raw stream (`emit`), flagged in `badEmit` when the streams are already
closed. -/
inductive WalkStep : WalkState → WalkState → Prop where
  | spawn (c r : Nat) (cl b : Bool) :
      WalkStep ⟨c, r + 1, cl, b⟩ ⟨c + 1, r + 2, cl, b⟩
  | finish (c r : Nat) (cl b : Bool) :
      WalkStep ⟨c + 1, r + 1, cl, b⟩ ⟨c, r, cl, b⟩
  | close (r : Nat) (b : Bool) :
      WalkStep ⟨0, r, false, b⟩ ⟨0, r, true, b⟩
  | emit (c r : Nat) (cl b : Bool) :
      WalkStep ⟨c, r + 1, cl, b⟩ ⟨c, r + 1, cl, b || cl⟩

/-- States reachable from the root call of `kick`. -/
def WalkReachable : WalkState → Prop :=
  Relation.ReflTransGen WalkStep ⟨1, 1, false, false⟩

/-- Counting abstraction of the file consumer of `gorep.reduce` (source
lines 338-351): `inputOpen` is whether the `range` over the raw file stream
is still running, `greps` the `waitGreps` WaitGroup value (scan tasks
spawned and not yet done), `lineClosed` whether `close(chLine)` has run,
and `badEmit` whether any scan task sent a record after that close. -/
structure ReduceState where
  inputOpen : Bool
  greps : Nat
  lineClosed : Bool
  badEmit : Bool
deriving DecidableEq, Repr

/-- Interleaved steps of the dispatch stage and its scan tasks: while the
raw file stream is open a message is consumed, with `waitGreps.Add(1)`
before `go grep` (`recvSpawn`); the raw stream is exhausted and the `range`
ends (`inputDone`); a live scan task sends a record on the line channel
(`grepEmit`), flagged when the channel is already closed; a scan task's
deferred `waitGreps.Done()` runs after its last send (`grepDone`); after
the `range` has ended, `waitGreps.Wait()` returns at zero and
`close(chLine)` runs, guarded against re-closing (`closeLine`). -/
inductive ReduceStep : ReduceState → ReduceState → Prop where
  | recvSpawn (n : Nat) (cl b : Bool) :
      ReduceStep ⟨true, n, cl, b⟩ ⟨true, n + 1, cl, b⟩
  | inputDone (n : Nat) (cl b : Bool) :
      ReduceStep ⟨true, n, cl, b⟩ ⟨false, n, cl, b⟩
  | grepEmit (io : Bool) (n : Nat) (cl b : Bool) :
      ReduceStep ⟨io, n + 1, cl, b⟩ ⟨io, n + 1, cl, b || cl⟩
  | grepDone (io : Bool) (n : Nat) (cl b : Bool) :
      ReduceStep ⟨io, n + 1, cl, b⟩ ⟨io, n, cl, b⟩
  | closeLine (b : Bool) :
      ReduceStep ⟨false, 0, false, b⟩ ⟨false, 0, true, b⟩

/-- States reachable from the start of the file consumer. -/
def ReduceReachable : ReduceState → Prop :=
  Relation.ReflTransGen ReduceStep ⟨true, 0, false, false⟩

/-- Claim C1: the walker's raw streams are closed only at the zero
transition of the outstanding-work counter (started at 1 for the root,
incremented before each spawn), at which point no listing task is still
running, so no entry is ever sent on a closed raw stream; and the MatchLine
stream is closed only after the file stream is exhausted and every spawned
scan task has finished, so no record is ever sent on the closed MatchLine
stream.  Re-closing is ruled out by the `closed = false` guards of the two
close steps. -/
theorem pipeline_close_ordering :
    (∀ s : WalkState, WalkReachable s →
      s.counter = s.running ∧
      (s.closed = true → s.counter = 0 ∧ s.running = 0) ∧
      s.badEmit = false) ∧
    (∀ s : ReduceState, ReduceReachable s →
      (s.lineClosed = true → s.inputOpen = false ∧ s.greps = 0) ∧
      s.badEmit = false) := by
  constructor
  · intro s h
    induction h with
    | refl => exact ⟨rfl, fun h => Bool.noConfusion h, rfl⟩
    | tail hsteps hstep ih =>
        cases hstep with
        | spawn c r cl b =>
            obtain ⟨ihc, ihcl, ihb⟩ := ih
            dsimp only at ihc ihcl ihb ⊢
            refine ⟨by omega, ?_, ihb⟩
            intro hcl
            exact absurd (ihcl hcl).2 (by omega)
        | finish c r cl b =>
            obtain ⟨ihc, ihcl, ihb⟩ := ih
            dsimp only at ihc ihcl ihb ⊢
            refine ⟨by omega, ?_, ihb⟩
            intro hcl
            exact absurd (ihcl hcl).1 (by omega)
        | close r b =>
            obtain ⟨ihc, ihcl, ihb⟩ := ih
            dsimp only at ihc ihcl ihb ⊢
            exact ⟨ihc, fun _ => ⟨rfl, by omega⟩, ihb⟩
        | emit c r cl b =>
            obtain ⟨ihc, ihcl, ihb⟩ := ih
            dsimp only at ihc ihcl ihb ⊢
            subst ihb
            cases cl with
            | false => exact ⟨ihc, fun h => Bool.noConfusion h, rfl⟩
            | true => exact absurd (ihcl rfl).2 (by omega)
  · intro s h
    induction h with
    | refl => exact ⟨fun h => Bool.noConfusion h, rfl⟩
    | tail hsteps hstep ih =>
        cases hstep with
        | recvSpawn n cl b =>
            obtain ⟨ihcl, ihb⟩ := ih
            dsimp only at ihcl ihb ⊢
            refine ⟨?_, ihb⟩
            intro hcl
            exact absurd (ihcl hcl).1 (fun h => Bool.noConfusion h)
        | inputDone n cl b =>
            obtain ⟨ihcl, ihb⟩ := ih
            dsimp only at ihcl ihb ⊢
            exact ⟨fun hcl => ⟨rfl, (ihcl hcl).2⟩, ihb⟩
        | grepEmit io n cl b =>
            obtain ⟨ihcl, ihb⟩ := ih
            dsimp only at ihcl ihb ⊢
            subst ihb
            cases cl with
            | false => exact ⟨fun h => Bool.noConfusion h, rfl⟩
            | true => exact absurd (ihcl rfl).2 (by omega)
        | grepDone io n cl b =>
            obtain ⟨ihcl, ihb⟩ := ih
            dsimp only at ihcl ihb ⊢
            refine ⟨?_, ihb⟩
            intro hcl
            exact absurd (ihcl hcl).2 (by omega)
        | closeLine b =>
            obtain ⟨ihcl, ihb⟩ := ih
            dsimp only at ihcl ihb ⊢
            exact ⟨fun _ => ⟨rfl, rfl⟩, ihb⟩

theorem pipeline_close_ordering_witness :
    ((⟨0, 0, true, false⟩ : WalkState).badEmit = false) ∧
    ((⟨false, 0, true, false⟩ : ReduceState).lineClosed = true →
      (⟨false, 0, true, false⟩ : ReduceState).inputOpen = false) := by
  constructor
  · exact (pipeline_close_ordering.1 ⟨0, 0, true, false⟩
      (Relation.ReflTransGen.tail
        (Relation.ReflTransGen.single (WalkStep.finish 0 0 false false))
        (WalkStep.close 0 false))).2.2
  · intro h
    exact ((pipeline_close_ordering.2 ⟨false, 0, true, false⟩
      (Relation.ReflTransGen.tail
        (Relation.ReflTransGen.single (ReduceStep.inputDone 0 false false))
        (ReduceStep.closeLine false))).1 h).1

/-- The command-line options record, translated from `type optionSet
struct`. -/
structure optionSet where
  v : Bool
  g : Bool
  grep_only : Bool
  search_binary : Bool
  ignore : String
  hidden : Bool
  ignorecase : Bool

/-- The regular-expression source string `newGorep` hands to
`regexp.Compile` for the search pattern (source lines 196-206): with
`-ignorecase` the pattern is prefixed by the global case-insensitivity flag
`"(?i)"`. -/
def patternSource (opt : optionSet) (pattern : String) : String :=
  if opt.ignorecase then "(?i)" ++ pattern else pattern

/-- The regular-expression source string `newGorep` hands to
`regexp.Compile` for the ignore pattern (source lines 208-217): compiled
only when `-ignore` was given a nonempty argument, and prefixed by `"(?i)"`
exactly when `-ignorecase` is set. -/
def ignoreSource (opt : optionSet) : Option String :=
  if opt.ignore.length > 0 then
    some (if opt.ignorecase then "(?i)" ++ opt.ignore else opt.ignore)
  else none

/-- A Go regexp source in case-insensitive mode: it starts with the global
flag `"(?i)"`, which makes every match of the compiled expression
case-insensitive. -/
def CaseInsensitiveSource (s : String) : Prop := ∃ t, s = "(?i)" ++ t

/-- The scope flags `newGorep` configures from the options (source lines
182-236): find scopes default on and grep off; `-g` turns grep on;
`-grep-only` turns the three find scopes off and grep on; `-search-binary`
and `-hidden` set their flags. -/
def newGorepScope (opt : optionSet) : searchScope :=
  let base : searchScope := ⟨true, true, true, false, false, false⟩
  let s1 := if opt.g then { base with grep := true } else base
  let s2 := if opt.grep_only then
      { s1 with dir := false, file := false, symlink := false, grep := true }
    else s1
  let s3 := if opt.search_binary then { s2 with binary := true } else s2
  if opt.hidden then { s3 with hidden := true } else s3

/-- Claim C10: with `-ignorecase` set, both the search pattern and the
ignore pattern (when one is given) are compiled from a source prefixed with
`"(?i)"`, so all matching in the run is case-insensitive; with it unset both
sources are passed through unchanged. -/
theorem newGorep_ignorecase (opt : optionSet) (pattern : String) :
    (opt.ignorecase = true →
      patternSource opt pattern = "(?i)" ++ pattern ∧
      CaseInsensitiveSource (patternSource opt pattern) ∧
      (opt.ignore.length > 0 →
        ignoreSource opt = some ("(?i)" ++ opt.ignore) ∧
        ∀ s, ignoreSource opt = some s → CaseInsensitiveSource s)) ∧
    (opt.ignorecase = false →
      patternSource opt pattern = pattern ∧
      (opt.ignore.length > 0 → ignoreSource opt = some opt.ignore)) := by
  constructor
  · intro hic
    refine ⟨by simp [patternSource, hic], ⟨pattern, by simp [patternSource, hic]⟩, ?_⟩
    intro hig
    refine ⟨by simp [ignoreSource, hig, hic], ?_⟩
    intro s hs
    simp only [ignoreSource, hig, if_pos, hic, if_true] at hs
    exact ⟨opt.ignore, (Option.some.inj hs).symm⟩
  · intro hic
    exact ⟨by simp [patternSource, hic], fun hig => by simp [ignoreSource, hig, hic]⟩

/-- Options as given by `gorep -ignorecase -ignore foo pattern`. -/
def icOpt : optionSet := ⟨false, false, false, false, "foo", false, true⟩

theorem newGorep_ignorecase_witness :
    patternSource icOpt "bar" = "(?i)" ++ "bar" ∧
    ignoreSource icOpt = some ("(?i)" ++ "foo") := by
  refine ⟨((newGorep_ignorecase icOpt "bar").1 rfl).1, ?_⟩
  exact (((newGorep_ignorecase icOpt "bar").1 rfl).2.2 (by decide)).1
